import Mathlib

/-!
Verification of PathMap: a byte-indexed trie map (`trie_map.rs`,
`write_zipper.rs`, `trie_node.rs`).

The repository's concrete node implementations (`line_list_node.rs`,
`dense_byte_node.rs`, `empty_node.rs`), the read zipper (`zipper.rs`) and the
zipper tracker (`zipper_tracking.rs`) are not among the source files; where an
operation's behaviour depends on them, the node layer is modelled from the
spec, as documented on each such definition.  A trie node is represented
extensionally by the list of (non-empty path, value) entries reachable from
it; the spec's data-model invariants (§3: no value at a zero-length internal
key, no dangling paths, eager pruning of empty nodes) make this extensional
view exact.  The map facade and the write-zipper control flow are translated
from `trie_map.rs` and `write_zipper.rs` directly.
-/

namespace PathMap

/-- A key path: an ordered sequence of bytes, each byte a natural number. -/
abbrev Key : Type := List Nat

/-- Modelled from the spec: the node layer (`line_list_node.rs`,
`dense_byte_node.rs` are not in the sources).  A trie node is represented
extensionally as the association list of (non-empty path, value) entries
reachable from it, per spec §3 ("Key. Non-empty ordered sequence of bytes for
non-root values"). -/
abbrev Entries (V : Type) : Type := List (Key × V)

variable {V : Type}

/-- Modelled from the spec: `node_get_val` / `get_val(k)` — exact-match lookup
of the value stored at key `k` (§4.1 "get_val(k) -> Option<&V> — exact match
only"). -/
def lookupKey : Entries V → Key → Option V
  | [], _ => none
  | e :: es, k => if e.1 = k then some e.2 else lookupKey es k

/-- Whether some entry has key `k`. -/
def hasKey (es : Entries V) (k : Key) : Bool :=
  (lookupKey es k).isSome

/-- Modelled from the spec: `node_set_val` — store `v` at key `k`, replacing an
existing value or adding a new entry (§4.1 `set_val(k, v)`). -/
def setKey : Entries V → Key → V → Entries V
  | [], k, v => [(k, v)]
  | e :: es, k, v => if e.1 = k then (k, v) :: es else e :: setKey es k v

/-- Modelled from the spec: `node_remove_val` — delete the value at key `k`
(§4.1 `remove_val(k)`).  Pruning of now-empty nodes (spec §3 "no dangling
paths") is implicit in the extensional representation. -/
def eraseKey : Entries V → Key → Entries V
  | [], _ => []
  | e :: es, k => if e.1 = k then es else e :: eraseKey es k

/-- The keys of an entry list, in order. -/
def keysOf (es : Entries V) : List Key :=
  es.map Prod.fst

/-- Well-formed entries: keys are distinct (one value per path) and non-empty
(spec §3: "A node never carries a value or child at a zero-length internal
key"). -/
def wfEntries (es : Entries V) : Prop :=
  (keysOf es).Nodup ∧ ∀ e ∈ es, e.1 ≠ []

instance (es : Entries V) : Decidable (wfEntries es) := by
  unfold wfEntries; infer_instance

/-- The entry `e` lies strictly below path `p`: its key extends `p` properly. -/
def strictBelow (p : Key) (e : Key × V) : Prop :=
  p <+: e.1 ∧ e.1 ≠ p

instance (p : Key) (e : Key × V) : Decidable (strictBelow p e) := by
  unfold strictBelow; exact instDecidableAnd

/-- Modelled from the spec: `get_node_at_key(k)` (§4.1) — the subtrie strictly
below path `p`, re-keyed relative to `p`. -/
def subAt (es : Entries V) (p : Key) : Entries V :=
  match es with
  | [] => []
  | e :: rest =>
    if strictBelow p e then (e.1.drop p.length, e.2) :: subAt rest p
    else subAt rest p

/-- Modelled from the spec: `node_set_branch` at path `p` (§4.1) — replace the
subtrie strictly below `p` by `sub`, leaving the value at `p` itself and all
other paths alone. -/
def graftAt (es : Entries V) (p : Key) (sub : Entries V) : Entries V :=
  es.filter (fun e => !decide (strictBelow p e)) ++
    sub.map fun s => (p ++ s.1, s.2)

/-- Join two values into an association list at key `k`: if `k` is present the
values are merged with `jf`, otherwise the entry is appended.  Used by the
drop-head model ("joining together all of the downstream sub-paths"). -/
def addJoin (jf : V → V → V) : Entries V → Key → V → Entries V
  | [], k, v => [(k, v)]
  | e :: es, k, v =>
    if e.1 = k then (k, jf e.2 v) :: es else e :: addJoin jf es k v

/-- Modelled from the spec: `drop_head_dyn(byte_cnt)` (§4.1: "Returns a node
composed of the children of `self`, `byte_cnt` bytes downstream, all joined
together").  Every path longer than `n` loses its first `n` bytes; values whose
paths collide afterwards are joined with `jf`; paths of length at most `n`
carry no child at that depth and contribute nothing. -/
def dropHeadList (jf : V → V → V) (n : Nat) (es : Entries V) : Entries V :=
  es.foldl
    (fun acc e => if n < e.1.length then addJoin jf acc (e.1.drop n) e.2 else acc)
    []

/-- The map: a root node (extensionally, its entries) and a separately stored
optional root value (`trie_map.rs` 26-29: `root`, `root_val`). -/
structure PMap (V : Type) where
  entries : Entries V
  rootVal : Option V
deriving DecidableEq

/-- `BytesTrieMap::new` (trie_map.rs 74-76): the empty map. -/
def PMap.empty : PMap V := ⟨[], none⟩

/-- A write zipper over a map: the map being edited and the focus path
(`write_zipper.rs`: `WriteZipperCore`, whose `key` fields spell the focus path
relative to the zipper root; the zipper here is rooted at the map root). -/
structure WZipper (V : Type) where
  pm : PMap V
  focus : Key
deriving DecidableEq

/-- `Zipper::path_exists` for a write zipper (write_zipper.rs 663-670): with a
zero-length node key (at the root) it is `true`; otherwise it asks
`node_contains_partial_key`, i.e. whether some existing key begins with the
focus path. -/
def zPathExists (z : WZipper V) : Prop :=
  z.focus = [] ∨ ∃ e ∈ z.pm.entries, z.focus <+: e.1

instance (z : WZipper V) : Decidable (zPathExists z) := by
  unfold zPathExists; infer_instance

/-- `WriteZipperCore::get_value` (write_zipper.rs 992-999): with a zero-length
node key reads the dedicated root-value slot, otherwise `node_get_val`. -/
def zGetValue (z : WZipper V) : Option V :=
  if z.focus = [] then z.pm.rootVal else lookupKey z.pm.entries z.focus

/-- `WriteZipperCore::set_value` (write_zipper.rs 1048-1064): with a
zero-length node key swaps into the dedicated root-value slot; otherwise
`node_set_val` stores the value at the focus path (node promotion on
`Err(replacement)` is a representation detail that the extensional node model
never needs). -/
def zSetValue (v : V) (z : WZipper V) : WZipper V :=
  if z.focus = [] then ⟨⟨z.pm.entries, some v⟩, z.focus⟩
  else ⟨⟨setKey z.pm.entries z.focus v, z.pm.rootVal⟩, z.focus⟩

/-- `WriteZipperCore::remove_value` (write_zipper.rs 1066-1081): with a
zero-length node key takes the root value; otherwise `node_remove_val`, and if
the node became empty `prune_path` removes the now-empty branch upward (eager
pruning is implicit in the extensional node model).  Returns the removed value
and the zipper (the focus does not move). -/
def zRemoveValue (z : WZipper V) : Option V × WZipper V :=
  if z.focus = [] then (z.pm.rootVal, ⟨⟨z.pm.entries, none⟩, z.focus⟩)
  else
    match lookupKey z.pm.entries z.focus with
    | some v => (some v, ⟨⟨eraseKey z.pm.entries z.focus, z.pm.rootVal⟩, z.focus⟩)
    | none => (none, z)

/-- `WriteZipperCore::remove_branches` (write_zipper.rs 1437-1463): removes all
branches below the focus, leaving a value at the focus itself alone. -/
def zRemoveBranches (z : WZipper V) : WZipper V :=
  ⟨⟨z.pm.entries.filter fun e => !decide (strictBelow z.focus e), z.pm.rootVal⟩,
    z.focus⟩

/-- `WriteZipperCore::graft_internal` (write_zipper.rs 1541-1570): replace the
subtree below the focus with `src` (`node_set_branch` at the focus); grafting
nothing is `remove_branches`. -/
def zGraftInternal (src : Entries V) (z : WZipper V) : WZipper V :=
  match src with
  | [] => zRemoveBranches z
  | _ => ⟨⟨graftAt z.pm.entries z.focus src, z.pm.rootVal⟩, z.focus⟩

/-- `WriteZipperCore::insert_prefix` (write_zipper.rs 1263-1274): if the focus
subtree exists, wrap it in a chain of parent nodes spelling `p` (`make_parents`,
write_zipper.rs 1746-1773) and graft the result back; otherwise do nothing and
return `false`. -/
def zInsertPrefix (p : Key) (z : WZipper V) : Bool × WZipper V :=
  match subAt z.pm.entries z.focus with
  | [] => (false, z)
  | s => (true, zGraftInternal (s.map fun e => (p ++ e.1, e.2)) z)

/-- `WriteZipperCore::drop_head` (write_zipper.rs 1247-1261): if the focus
subtree exists, `drop_head_dyn` collapses the first `n` bytes of every
downstream path; a non-`None` result is grafted back, a `None` result (no
children at that depth) leaves the trie unchanged and returns `false`. -/
def zDropHead (jf : V → V → V) (n : Nat) (z : WZipper V) : Bool × WZipper V :=
  match subAt z.pm.entries z.focus with
  | [] => (false, z)
  | s =>
    match dropHeadList jf n s with
    | [] => (false, z)
    | s' => (true, zGraftInternal s' z)

/-- `BytesTrieMap::get` (trie_map.rs 332-343): reads via a read zipper at path
`k`; the read zipper's `get_value` at a zero-length path reads the root value
(`read_zipper_at_borrowed_path`, trie_map.rs 148-162 passes the root value
exactly when the path is empty; the read-zipper core is not in the sources and
its exact-lookup behaviour is modelled from the spec §4.3). -/
def mapGet (m : PMap V) (k : Key) : Option V :=
  zGetValue ⟨m, k⟩

/-- `BytesTrieMap::insert` (trie_map.rs 286-297): a write zipper at path `k`,
then `set_value`. -/
def mapInsert (k : Key) (v : V) (m : PMap V) : PMap V :=
  (zSetValue v ⟨m, k⟩).pm

/-- `BytesTrieMap::remove` (trie_map.rs 303-310): a write zipper at the root,
`descend_to(k)`, then `remove_value` (descending rather than rooting at `k`
lets the zipper prune emptied branches). -/
def mapRemove (k : Key) (m : PMap V) : Option V × PMap V :=
  ((zRemoveValue ⟨m, k⟩).1, (zRemoveValue ⟨m, k⟩).2.pm)

/-- `BytesTrieMap::is_empty` (trie_map.rs 324-329): whether the root node is
empty (the root value is not consulted). -/
def mapIsEmpty (m : PMap V) : Bool :=
  m.entries.isEmpty

/-- `BytesTrieMap::val_count` (trie_map.rs 348-353): the number of values in
the subtree below the root node (`val_count_below_root`; the root value is not
counted). -/
def mapValCount (m : PMap V) : Nat :=
  m.entries.length

/-- Modelled from the spec: node-level `pjoin` / `join_dyn` (§4.1, glossary
"Join: union ... lifted through the value algebra"): the union of the two
key sets, values on common keys merged with the value-level join `jf`. -/
def entriesJoin (jf : V → V → V) (xs ys : Entries V) : Entries V :=
  (xs.map fun e =>
    match lookupKey ys e.1 with
    | some w => (e.1, jf e.2 w)
    | none => e) ++
  ys.filter fun e => !hasKey xs e.1

/-- Modelled from the spec: node-level `pmeet` / `meet_dyn` (§4.1, glossary
"meet: intersection"): the common keys, values merged with the value-level
meet `mf`. -/
def entriesMeet (mf : V → V → V) : Entries V → Entries V → Entries V
  | [], _ => []
  | e :: rest, ys =>
    match lookupKey ys e.1 with
    | some w => (e.1, mf e.2 w) :: entriesMeet mf rest ys
    | none => entriesMeet mf rest ys

/-- Modelled from the spec: node-level `psubtract_dyn` (§4.1, §7): keys of `xs`
not in `ys` keep their value; on common keys the value-level partial subtract
`sf` either annihilates the entry (`none`) or keeps a fresh value. -/
def entriesSubtract (sf : V → V → Option V) : Entries V → Entries V → Entries V
  | [], _ => []
  | e :: rest, ys =>
    match lookupKey ys e.1 with
    | some w =>
      match sf e.2 w with
      | some u => (e.1, u) :: entriesSubtract sf rest ys
      | none => entriesSubtract sf rest ys
    | none => e :: entriesSubtract sf rest ys

/-- `Lattice for Option<V>::join` (ring.rs 32-44): the value-level join lifted
to options, keeping a one-sided value unchanged. -/
def optJoin (jf : V → V → V) : Option V → Option V → Option V
  | none, none => none
  | none, some r => some r
  | some l, none => some l
  | some l, some r => some (jf l r)

/-- `Lattice for Option<V>::meet` (ring.rs 46-56): the value-level meet lifted
to options, empty unless both sides are present. -/
def optMeet (mf : V → V → V) : Option V → Option V → Option V
  | none, _ => none
  | some _, none => none
  | some l, some r => some (mf l r)

/-- `DistributiveLattice for Option<V>::subtract` (ring.rs 63-73): the
value-level partial subtract lifted to options; the subtrahend absent keeps
the value, a value-level annihilation removes it. -/
def optSubtract (sf : V → V → Option V) : Option V → Option V → Option V
  | none, _ => none
  | some s, none => some s
  | some s, some o => sf s o

/-- Modelled from the spec: node-level `prestrict_dyn` (§4.4 "Restricts paths
in the subtrie ... to paths prefixed by a path to a value in `read_zipper`",
glossary "restrict: path-prefix intersection"): keep the entries of `xs` whose
key has some key of `ys` as a prefix. -/
def entriesRestrict (xs ys : Entries V) : Entries V :=
  xs.filter fun e => ys.any fun y => y.1.isPrefixOf e.1

/-- `Lattice::join for BytesTrieMap` (trie_map.rs 435-437):
`new_with_root(self.root().join(&other.root()))` — the root nodes are joined
and the new map is built by `new_with_root`, whose `root_val` is `None`
(trie_map.rs 80-85): the root values of both operands are dropped. -/
def mapJoin (jf : V → V → V) (x y : PMap V) : PMap V :=
  ⟨entriesJoin jf x.entries y.entries, none⟩

/-- `BytesTrieMap::meet` (trie_map.rs 357-370) via `pmeet` (trie_map.rs
448-450): every branch produces a map with no root value (`new_with_root`,
`Self::new`, or `clone`, which per trie_map.rs 34-39 also rebuilds with
`new_with_root` and so drops the root value). -/
def mapMeet (mf : V → V → V) (x y : PMap V) : PMap V :=
  ⟨entriesMeet mf x.entries y.entries, none⟩

/-- `BytesTrieMap::subtract` (trie_map.rs 392-407): as with `meet`, every
branch produces a map with no root value. -/
def mapSubtract (sf : V → V → Option V) (x y : PMap V) : PMap V :=
  ⟨entriesSubtract sf x.entries y.entries, none⟩

/-- `BytesTrieMap::restrict` (trie_map.rs 374-389): as with `meet`, every
branch produces a map with no root value. -/
def mapRestrict (x y : PMap V) : PMap V :=
  ⟨entriesRestrict x.entries y.entries, none⟩

/-- A shared owned node handle (`TrieNodeODRc`, trie_node.rs 765-809): a
reference-counted pointer to a node.  The pointer identity is modelled by
`ptrId`; the pointee extensionally by `trie`.  Two handles with the same
`ptrId` reference the same object, so their `trie` fields agree (spec §3:
"equality of two NodeRcs by pointer identity is a sufficient ... proof of
structural equality"). -/
structure NodeHandle (V : Type) where
  ptrId : Nat
  trie : Entries V

/-- `TrieNodeODRc::ptr_eq` (trie_node.rs 800-803): pointer identity. -/
def ptrEq (a b : NodeHandle V) : Bool :=
  a.ptrId == b.ptrId

/-- `TrieNodeODRc::join` (trie_node.rs 839-851): pointer-equal operands
short-circuit to a clone of `self`; otherwise an empty `self` returns a clone
of `other`, and the general case defers to the node-level `join_dyn`
(modelled by `entriesJoin`).  The result is the content of the returned
handle. -/
def nhJoin (jf : V → V → V) (a b : NodeHandle V) : Entries V :=
  if ptrEq a b then a.trie
  else
    match a.trie with
    | [] => b.trie
    | _ => entriesJoin jf a.trie b.trie

/-- `TrieNodeODRc::meet` (trie_node.rs 858-865): pointer-equal operands
short-circuit to `Some(self.clone())`; otherwise the node-level `meet_dyn`
(modelled by `entriesMeet`, with an empty intersection reported as `None`). -/
def nhMeet (mf : V → V → V) (a b : NodeHandle V) : Option (Entries V) :=
  if ptrEq a b then some a.trie
  else
    match entriesMeet mf a.trie b.trie with
    | [] => none
    | m => some m

/-- `TrieNodeODRc::psubtract` (trie_node.rs 869-881): pointer-equal operands
short-circuit to `None` (complete annihilation); otherwise the node-level
`psubtract_dyn` (modelled by `entriesSubtract`, an empty difference reported
as annihilation). -/
def nhPsubtract (sf : V → V → Option V) (a b : NodeHandle V) : Option (Entries V) :=
  if ptrEq a b then none
  else
    match entriesSubtract sf a.trie b.trie with
    | [] => none
    | d => some d

/-- `TrieNodeODRc::subtract` (trie_node.rs 890-902): pointer-equal operands
short-circuit to a fresh `EmptyNode`; otherwise as `psubtract` with
annihilation rendered as the empty node and identity as a clone of `self`. -/
def nhSubtract (sf : V → V → Option V) (a b : NodeHandle V) : Entries V :=
  if ptrEq a b then []
  else entriesSubtract sf a.trie b.trie

/-- Modelled from the spec: the `ZipperTracker` (§3 "Tracker. Per-head
registry mapping each exclusive write-root path to a write-in-progress flag;
on handle drop the entry is released"; `zipper_tracking.rs` is not in the
sources).  The registry is the list of live exclusive write-root paths. -/
structure ZTracker where
  paths : List Key
deriving DecidableEq

/-- Two exclusive paths conflict when one is a prefix (or extension) of the
other (spec §4.5 step 3). -/
def pathsConflict (p q : Key) : Prop :=
  p <+: q ∨ q <+: p

instance (p q : Key) : Decidable (pathsConflict p q) := by
  unfold pathsConflict; infer_instance

/-- The typed handle-creation failure (spec §7: "a typed overlap error"). -/
inductive ZipperError where
  | overlap
deriving DecidableEq

/-- Modelled from the spec: `ZipperHead::write_zipper_at_exclusive_path(p)`
(§4.5: "The tracker records `p`.  A second request that is a prefix or
extension of a recorded path returns `Err(Overlap)`; disjoint siblings
succeed"). -/
def requestWriteZipper (t : ZTracker) (p : Key) : Except ZipperError ZTracker :=
  if t.paths.any (fun q => decide (pathsConflict q p)) then .error .overlap
  else .ok ⟨p :: t.paths⟩

/-- Modelled from the spec: dropping a write-zipper handle releases its
tracker entry (§4.5 step 4: "On handle drop, the entry is released"). -/
def releaseWriteZipper (t : ZTracker) (p : Key) : ZTracker :=
  ⟨t.paths.erase p⟩

/-- The positive-step loop of `BytesTrieMap::range` (trie_map.rs 100-112):
starting at `i`, break when `i >= stop`, otherwise record `i` and advance by
`step`. -/
def rangePos (stop step : Int) (hstep : 0 < step) (i : Int) : List Int :=
  if i ≥ stop then [] else i :: rangePos stop step hstep (i + step)
termination_by (stop - i).toNat
decreasing_by omega

/-- The non-positive-step loop of `BytesTrieMap::range` (trie_map.rs 100-112):
starting at `i`, break when `i <= step` (the source compares against `step`,
not `stop`), otherwise record `i` and advance by `step`.  The source loops
forever when `step = 0`, so the model is restricted to `step < 0`. -/
def rangeNeg (step : Int) (hstep : step < 0) (i : Int) : List Int :=
  if i ≤ step then [] else i :: rangeNeg step hstep (i + step)
termination_by (i - step).toNat
decreasing_by omega

/-- The sequence of integers whose encodings `BytesTrieMap::range` (trie_map.rs
87-116) inserts: the loop with `positive = step > 0` choosing the break test. -/
def rangeKeys (start stop step : Int) (hstep : step ≠ 0) : List Int :=
  if h : 0 < step then rangePos stop step h start
  else rangeNeg step (by omega) start

/-- Big-endian byte string of width `w` for a natural number (`to_be_bytes`). -/
def natToBytesBE : Nat → Nat → Key
  | 0, _ => []
  | w + 1, n => natToBytesBE w (n / 256) ++ [n % 256]

/-- `R::to_be_bytes` for a `w`-byte integer type: the big-endian two's
complement byte string. -/
def intToBytesBE (w : Nat) (i : Int) : Key :=
  natToBytesBE w (i.emod (2 ^ (8 * w))).toNat

/-- `R::to_le_bytes`: the little-endian two's complement byte string. -/
def intToBytesLE (w : Nat) (i : Int) : Key :=
  (intToBytesBE w i).reverse

/-- `BytesTrieMap::range::<BE, R>(start, stop, step, value)` (trie_map.rs
87-116) for a `w`-byte integer type `R`: each loop iteration descends to the
encoding of `i` and sets `value` there. -/
def rangeMap (be : Bool) (w : Nat) (start stop step : Int) (hstep : step ≠ 0)
    (v : V) : PMap V :=
  (rangeKeys start stop step hstep).foldl
    (fun m i => mapInsert (if be then intToBytesBE w i else intToBytesLE w i) v m)
    PMap.empty

/-! ### Lemmas about the extensional node layer -/

theorem keysOf_cons (e : Key × V) (es : Entries V) :
    keysOf (e :: es) = e.1 :: keysOf es := rfl

theorem lookupKey_setKey_self (es : Entries V) (k : Key) (v : V) :
    lookupKey (setKey es k v) k = some v := by
  induction es with
  | nil => simp [setKey, lookupKey]
  | cons e rest ih =>
    by_cases h : e.1 = k
    · simp [setKey, h, lookupKey]
    · simp [setKey, h, lookupKey, ih]

theorem lookupKey_setKey_ne (es : Entries V) (k k' : Key) (v : V) (h : k' ≠ k) :
    lookupKey (setKey es k v) k' = lookupKey es k' := by
  have hk : ¬ k = k' := fun h' => h h'.symm
  induction es with
  | nil => simp [setKey, lookupKey, hk]
  | cons e rest ih =>
    by_cases he : e.1 = k
    · subst he
      simp [setKey, lookupKey, hk]
    · by_cases he' : e.1 = k'
      · simp [setKey, he, lookupKey, he', h]
      · simp [setKey, he, lookupKey, he', ih]

theorem lookupKey_eq_none_iff (es : Entries V) (k : Key) :
    lookupKey es k = none ↔ k ∉ keysOf es := by
  induction es with
  | nil => simp [lookupKey, keysOf]
  | cons e rest ih =>
    by_cases h : e.1 = k
    · subst h
      simp [lookupKey, keysOf_cons]
    · simp [lookupKey, h, keysOf_cons, ih, Ne.symm h]

theorem lookupKey_isSome_iff (es : Entries V) (k : Key) :
    (lookupKey es k).isSome = true ↔ k ∈ keysOf es := by
  rw [Option.isSome_iff_ne_none, ne_eq, lookupKey_eq_none_iff, not_not]

theorem lookupKey_of_mem_nodup (es : Entries V) (e : Key × V)
    (hn : (keysOf es).Nodup) (he : e ∈ es) :
    lookupKey es e.1 = some e.2 := by
  induction es with
  | nil => simp at he
  | cons e₀ rest ih =>
    rw [keysOf_cons, List.nodup_cons] at hn
    rcases List.mem_cons.mp he with h | h
    · subst h; simp [lookupKey]
    · have hne : ¬ e₀.1 = e.1 := by
        intro hk
        apply hn.1
        rw [hk]
        exact List.mem_map_of_mem Prod.fst h
      simp [lookupKey, hne, ih hn.2 h]

theorem mem_of_lookupKey_eq_some (es : Entries V) (k : Key) (v : V)
    (h : lookupKey es k = some v) : (k, v) ∈ es := by
  induction es with
  | nil => simp [lookupKey] at h
  | cons e rest ih =>
    by_cases he : e.1 = k
    · rw [lookupKey, if_pos he] at h
      obtain ⟨k₀, v₀⟩ := e
      obtain rfl : v₀ = v := Option.some.inj h
      obtain rfl : k₀ = k := he
      exact List.mem_cons_self _ _
    · rw [lookupKey, if_neg he] at h
      exact List.mem_cons_of_mem _ (ih h)

theorem mem_keysOf_setKey (es : Entries V) (k k' : Key) (v : V) :
    k' ∈ keysOf (setKey es k v) ↔ k' ∈ keysOf es ∨ k' = k := by
  induction es with
  | nil => simp [setKey, keysOf]
  | cons e rest ih =>
    by_cases h : e.1 = k
    · subst h
      have hs : setKey (e :: rest) e.1 v = (e.1, v) :: rest := by simp [setKey]
      rw [hs, keysOf_cons, keysOf_cons]
      simp only [List.mem_cons]
      tauto
    · have hs : setKey (e :: rest) k v = e :: setKey rest k v := by simp [setKey, h]
      rw [hs, keysOf_cons, keysOf_cons]
      simp only [List.mem_cons, ih]
      tauto

theorem nodupKeys_setKey (es : Entries V) (k : Key) (v : V)
    (hn : (keysOf es).Nodup) : (keysOf (setKey es k v)).Nodup := by
  induction es with
  | nil => simp [setKey, keysOf]
  | cons e rest ih =>
    rw [keysOf_cons, List.nodup_cons] at hn
    by_cases h : e.1 = k
    · subst h
      have hs : setKey (e :: rest) e.1 v = (e.1, v) :: rest := by simp [setKey]
      rw [hs, keysOf_cons, List.nodup_cons]
      exact hn
    · have hs : setKey (e :: rest) k v = e :: setKey rest k v := by simp [setKey, h]
      rw [hs, keysOf_cons, List.nodup_cons]
      refine ⟨fun hmem => ?_, ih hn.2⟩
      rcases (mem_keysOf_setKey rest k e.1 v).mp hmem with hm | hm
      · exact hn.1 hm
      · exact h hm

theorem lookupKey_eraseKey_self (es : Entries V) (k : Key)
    (hn : (keysOf es).Nodup) : lookupKey (eraseKey es k) k = none := by
  induction es with
  | nil => simp [eraseKey, lookupKey]
  | cons e rest ih =>
    rw [keysOf_cons, List.nodup_cons] at hn
    by_cases h : e.1 = k
    · subst h
      simp only [eraseKey, if_pos rfl]
      exact (lookupKey_eq_none_iff rest e.1).mpr hn.1
    · simp [eraseKey, h, lookupKey, ih hn.2]

theorem lookupKey_eraseKey_ne (es : Entries V) (k k' : Key) (h : k' ≠ k) :
    lookupKey (eraseKey es k) k' = lookupKey es k' := by
  induction es with
  | nil => simp [eraseKey]
  | cons e rest ih =>
    by_cases he : e.1 = k
    · subst he
      have hne : ¬ e.1 = k' := fun h' => h h'.symm
      simp [eraseKey, lookupKey, hne]
    · by_cases he' : e.1 = k'
      · simp [eraseKey, he, lookupKey, he', h]
      · simp [eraseKey, he, lookupKey, he', ih]

theorem lookupKey_append (as bs : Entries V) (k : Key) :
    lookupKey (as ++ bs) k = (lookupKey as k).or (lookupKey bs k) := by
  induction as with
  | nil => simp [lookupKey]
  | cons e rest ih =>
    by_cases h : e.1 = k <;> simp [lookupKey, h, ih]

theorem lookupKey_mapEntry (F : Key × V → V) (es : Entries V) (k : Key) :
    lookupKey (es.map fun e => (e.1, F e)) k
      = (lookupKey es k).map fun v => F (k, v) := by
  induction es with
  | nil => simp [lookupKey]
  | cons e rest ih =>
    obtain ⟨k₀, v₀⟩ := e
    by_cases h : k₀ = k
    · subst h; simp [lookupKey]
    · simp [lookupKey, h, ih]

theorem lookupKey_filterKey (q : Key → Bool) (es : Entries V) (k : Key) :
    lookupKey (es.filter fun e => q e.1) k
      = if q k then lookupKey es k else none := by
  induction es with
  | nil => simp [lookupKey]
  | cons e rest ih =>
    by_cases h : e.1 = k
    · subst h
      cases hq : q e.1 <;> simp [lookupKey, hq, ih, List.filter_cons]
    · cases hq : q e.1 <;> simp [lookupKey, h, hq, ih, List.filter_cons]

/-! ### C1, C5, C6, C7, C10 -/

/-- C1: for every map `m`, key `k` and value `v`, immediately after
`m.insert(k, v)` the lookup `m.get(k)` returns `Some(v)`; and when the insert
is followed by `m.remove(k)`, the remove returns `Some(v)` and a subsequent
`m.get(k)` returns `None`. -/
theorem claimC1RoundTrip (m : PMap V) (k : Key) (v : V)
    (hwf : wfEntries m.entries) :
    mapGet (mapInsert k v m) k = some v ∧
    (mapRemove k (mapInsert k v m)).1 = some v ∧
    mapGet (mapRemove k (mapInsert k v m)).2 k = none := by
  by_cases hk : k = []
  · subst hk
    simp [mapGet, mapInsert, mapRemove, zGetValue, zSetValue, zRemoveValue]
  · have h1 : mapInsert k v m = ⟨setKey m.entries k v, m.rootVal⟩ := by
      simp [mapInsert, zSetValue, hk]
    have h2 : lookupKey (setKey m.entries k v) k = some v :=
      lookupKey_setKey_self m.entries k v
    refine ⟨?_, ?_, ?_⟩
    · rw [h1]; simp [mapGet, zGetValue, hk, h2]
    · rw [h1]; simp [mapRemove, zRemoveValue, hk, h2]
    · rw [h1]
      simp [mapRemove, zRemoveValue, hk, h2, mapGet, zGetValue,
        lookupKey_eraseKey_self _ _ (nodupKeys_setKey _ k v hwf.1)]

/-- Witness for C1 at a concrete map, key and value. -/
theorem claimC1RoundTripWitness :
    wfEntries (PMap.empty (V := Nat)).entries ∧
    (mapGet (mapInsert [97] 5 (PMap.empty (V := Nat))) [97] = some 5 ∧
      (mapRemove [97] (mapInsert [97] 5 (PMap.empty (V := Nat)))).1 = some 5 ∧
      mapGet (mapRemove [97] (mapInsert [97] 5 (PMap.empty (V := Nat)))).2 [97]
        = none) :=
  ⟨by decide, claimC1RoundTrip PMap.empty [97] 5 (by decide)⟩

/-- C5: two pointer-equal node handles short-circuit the algebraic
combinators: `join` and `meet` return the shared operand's trie, `psubtract`
reports annihilation and `subtract` returns the empty trie (trie_node.rs
838-902). -/
theorem claimC5PtrEqShortCircuit (jf mf : V → V → V) (sf : V → V → Option V)
    (a b : NodeHandle V) (h : ptrEq a b = true) :
    nhJoin jf a b = a.trie ∧ nhMeet mf a b = some a.trie ∧
    nhPsubtract sf a b = none ∧ nhSubtract sf a b = [] := by
  refine ⟨?_, ?_, ?_, ?_⟩ <;> simp [nhJoin, nhMeet, nhPsubtract, nhSubtract, h]

/-- Witness for C5 at a concrete pair of pointer-equal handles. -/
theorem claimC5PtrEqShortCircuitWitness :
    ptrEq (NodeHandle.mk 3 [([1], 2)]) (NodeHandle.mk 3 [([1], (2 : Nat))]) = true ∧
    (nhJoin (fun x _ => x) (NodeHandle.mk 3 [([1], 2)])
        (NodeHandle.mk 3 [([1], (2 : Nat))]) = [([1], 2)] ∧
      nhMeet (fun x _ => x) (NodeHandle.mk 3 [([1], 2)])
        (NodeHandle.mk 3 [([1], (2 : Nat))]) = some [([1], 2)] ∧
      nhPsubtract (fun _ _ => none) (NodeHandle.mk 3 [([1], 2)])
        (NodeHandle.mk 3 [([1], (2 : Nat))]) = none ∧
      nhSubtract (fun _ _ => none) (NodeHandle.mk 3 [([1], 2)])
        (NodeHandle.mk 3 [([1], (2 : Nat))]) = []) :=
  ⟨by decide, claimC5PtrEqShortCircuit _ _ _ _ _ (by decide)⟩

/-- C6: `write_zipper_at_exclusive_path(p)` succeeds exactly when no live
write-zipper root recorded by the same head is a prefix or an extension of
`p`; and dropping the issued handle restores the tracker, so the path is
available again. -/
theorem claimC6ExclusivePaths (t : ZTracker) (p : Key) :
    ((∃ t', requestWriteZipper t p = .ok t') ↔
      ∀ q ∈ t.paths, ¬ pathsConflict q p) ∧
    (∀ t', requestWriteZipper t p = .ok t' →
      releaseWriteZipper t' p = t ∧
      requestWriteZipper (releaseWriteZipper t' p) p = requestWriteZipper t p) := by
  by_cases hany : (t.paths.any fun q => decide (pathsConflict q p)) = true
  · have hreq : requestWriteZipper t p = .error .overlap := by
      simp [requestWriteZipper, hany]
    refine ⟨⟨fun ⟨t', ht⟩ => ?_, fun hall => ?_⟩, fun t' ht => ?_⟩
    · rw [hreq] at ht; exact Except.noConfusion ht
    · exfalso
      rw [List.any_eq_true] at hany
      obtain ⟨q, hq, hd⟩ := hany
      exact hall q hq (of_decide_eq_true hd)
    · rw [hreq] at ht; exact Except.noConfusion ht
  · have hreq : requestWriteZipper t p = .ok ⟨p :: t.paths⟩ := by
      simp [requestWriteZipper, hany]
    refine ⟨⟨fun _ q hq hconf => ?_, fun _ => ⟨_, hreq⟩⟩, fun t' ht => ?_⟩
    · exact hany (List.any_eq_true.mpr ⟨q, hq, decide_eq_true hconf⟩)
    · rw [hreq] at ht
      obtain rfl : (⟨p :: t.paths⟩ : ZTracker) = t' := by
        cases ht; rfl
      have hrel : releaseWriteZipper ⟨p :: t.paths⟩ p = t := by
        simp [releaseWriteZipper]
      exact ⟨hrel, by rw [hrel]⟩

/-- C7: with a zero-length key, `get`, `insert` and `remove` respectively
read, set and remove the map's root value, which is stored separately from
any node; the entries at all non-empty keys are left unchanged. -/
theorem claimC7ZeroLengthKey (m : PMap V) (v : V) :
    mapGet m [] = m.rootVal ∧
    (mapInsert [] v m).rootVal = some v ∧
    (mapInsert [] v m).entries = m.entries ∧
    (mapRemove [] m).1 = m.rootVal ∧
    (mapRemove [] m).2.rootVal = none ∧
    (mapRemove [] m).2.entries = m.entries ∧
    (∀ k, k ≠ [] → mapGet (mapInsert [] v m) k = mapGet m k) ∧
    (∀ k, k ≠ [] → mapGet (mapRemove [] m).2 k = mapGet m k) := by
  refine ⟨?_, ?_, ?_, ?_, ?_, ?_, ?_, ?_⟩ <;>
    simp [mapGet, mapInsert, mapRemove, zGetValue, zSetValue, zRemoveValue] <;>
    intro k hk <;>
    simp [hk]

/-- C10: a map whose only content is a root value reports `is_empty() = true`
and `val_count() = 0`, even though `get` of the zero-length key returns the
root value. -/
theorem claimC10RootValueInvisible (m : PMap V) (v : V)
    (he : m.entries = []) (hv : m.rootVal = some v) :
    mapIsEmpty m = true ∧ mapValCount m = 0 ∧ mapGet m [] = some v := by
  simp [mapIsEmpty, mapValCount, mapGet, zGetValue, he, hv]

/-- Witness for C10 at a concrete map holding only a root value. -/
theorem claimC10RootValueInvisibleWitness :
    (PMap.mk [] (some (5 : Nat))).entries = [] ∧
    (PMap.mk [] (some (5 : Nat))).rootVal = some 5 ∧
    (mapIsEmpty (PMap.mk [] (some (5 : Nat))) = true ∧
      mapValCount (PMap.mk [] (some (5 : Nat))) = 0 ∧
      mapGet (PMap.mk [] (some (5 : Nat))) [] = some 5) :=
  ⟨rfl, rfl, claimC10RootValueInvisible (PMap.mk [] (some 5)) 5 rfl rfl⟩

/-! ### C3 (corrected) and C8 -/

/-- After grafting a non-empty subtree the focus path exists. -/
theorem zPathExists_graft (z : WZipper V) (src : Entries V) (hsrc : src ≠ []) :
    zPathExists (zGraftInternal src z) := by
  obtain ⟨s, rest, rfl⟩ := List.exists_cons_of_ne_nil hsrc
  exact Or.inr ⟨(z.focus ++ s.1, s.2),
    List.mem_append_right _ (List.mem_map_of_mem _ (List.mem_cons_self s rest)),
    List.prefix_append _ _⟩

/-- C3 (amended): after `set_value` the focus path exists, and after grafting
a non-empty subtree the focus path exists, from any prior focus state; after
`insert_prefix` the focus path exists provided the call reported success
(`insert_prefix` is a no-op returning `false` when the focus subtree is
empty, and then a dangling focus stays dangling). -/
theorem claimC3PathExistsAfterWrite (z : WZipper V) (v : V) (src : Entries V)
    (p : Key) (hsrc : src ≠ []) :
    zPathExists (zSetValue v z) ∧
    zPathExists (zGraftInternal src z) ∧
    ((zInsertPrefix p z).1 = true → zPathExists (zInsertPrefix p z).2) := by
  refine ⟨?_, zPathExists_graft z src hsrc, ?_⟩
  · by_cases hf : z.focus = []
    · exact Or.inl (by simp [zSetValue, hf])
    · have hset : zSetValue v z
          = ⟨⟨setKey z.pm.entries z.focus v, z.pm.rootVal⟩, z.focus⟩ := by
        simp [zSetValue, hf]
      rw [hset]
      exact Or.inr ⟨(z.focus, v),
        mem_of_lookupKey_eq_some (setKey z.pm.entries z.focus v) z.focus v
          (lookupKey_setKey_self _ _ _),
        List.prefix_refl _⟩
  · intro htrue
    rcases hsub : subAt z.pm.entries z.focus with _ | ⟨s, rest⟩
    · simp [zInsertPrefix, hsub] at htrue
    · have : (zInsertPrefix p z).2
          = zGraftInternal (((s :: rest).map fun e => (p ++ e.1, e.2))) z := by
        simp [zInsertPrefix, hsub]
      rw [this]
      exact zPathExists_graft z _ (by simp)

/-- Witness for C3 at a concrete zipper, value, subtree and path. -/
theorem claimC3PathExistsAfterWriteWitness :
    ([([3], 4)] : Entries Nat) ≠ [] ∧
    (zPathExists (zSetValue 7 (WZipper.mk (PMap.empty (V := Nat)) [97])) ∧
      zPathExists (zGraftInternal [([3], 4)]
        (WZipper.mk (PMap.empty (V := Nat)) [97])) ∧
      ((zInsertPrefix [98] (WZipper.mk (PMap.empty (V := Nat)) [97])).1 = true →
        zPathExists (zInsertPrefix [98]
          (WZipper.mk (PMap.empty (V := Nat)) [97])).2)) :=
  ⟨by decide, claimC3PathExistsAfterWrite (WZipper.mk PMap.empty [97]) 7
    [([3], 4)] [98] (by decide)⟩

/-- C3's claim as stated is false: on a dangling focus, `insert_prefix` is a
no-op (write_zipper.rs 1263-1274 returns `false` when `get_focus` is `None`),
so the focus path still does not exist afterwards.  Concretely: an empty map,
focus at path `[97]`, `insert_prefix([98])`. -/
theorem claimC3Counterexample :
    ¬ zPathExists
      (zInsertPrefix [98] (WZipper.mk (PMap.empty (V := Nat)) [97])).2 := by
  decide

/-- C8: `remove_value()` at a focus holding value `v` returns `Some v`,
does not move the focus, leaves every other key (in particular every path
below the focus) unchanged, and afterwards no value remains at the focus
(now-empty nodes are pruned upward, so `path_exists()` may then be false);
at a focus with no value it returns `None` and changes nothing. -/
theorem claimC8RemoveValue (z : WZipper V) (hwf : wfEntries z.pm.entries) :
    (∀ v, zGetValue z = some v →
      (zRemoveValue z).1 = some v ∧
      (zRemoveValue z).2.focus = z.focus ∧
      (∀ q, q ≠ [] →
        lookupKey (zRemoveValue z).2.pm.entries (z.focus ++ q)
          = lookupKey z.pm.entries (z.focus ++ q)) ∧
      (∀ k, k ≠ z.focus →
        lookupKey (zRemoveValue z).2.pm.entries k = lookupKey z.pm.entries k) ∧
      zGetValue (zRemoveValue z).2 = none) ∧
    (zGetValue z = none → zRemoveValue z = (none, z)) := by
  obtain ⟨⟨es, rv⟩, f⟩ := z
  by_cases hf : f = []
  · subst hf
    constructor
    · intro v hv
      simp only [zGetValue] at hv
      simp at hv
      simp [zRemoveValue, zGetValue, hv]
    · intro h0
      simp only [zGetValue] at h0
      simp at h0
      simp [zRemoveValue, h0]
  · constructor
    · intro v hv
      simp only [zGetValue, hf, if_neg, if_false] at hv
      have hrem : zRemoveValue ⟨⟨es, rv⟩, f⟩
          = (some v, ⟨⟨eraseKey es f, rv⟩, f⟩) := by
        simp [zRemoveValue, hf, hv]
      rw [hrem]
      refine ⟨rfl, rfl, ?_, ?_, ?_⟩
      · intro q hq
        exact lookupKey_eraseKey_ne es f (f ++ q)
          (fun hEq => hq (List.append_right_eq_self.mp hEq))
      · intro k hk
        exact lookupKey_eraseKey_ne es f k hk
      · simp [zGetValue, hf, lookupKey_eraseKey_self es f hwf.1]
    · intro h0
      simp only [zGetValue, hf, if_neg, if_false] at h0
      simp [zRemoveValue, hf, h0]

/-- Witness for C8 at a concrete zipper whose focus holds a value. -/
theorem claimC8RemoveValueWitness :
    wfEntries (WZipper.mk
      (PMap.mk [([1], 9), ([1, 2], (10 : Nat))] none) [1]).pm.entries ∧
    ((∀ v, zGetValue (WZipper.mk
          (PMap.mk [([1], 9), ([1, 2], (10 : Nat))] none) [1]) = some v →
        (zRemoveValue (WZipper.mk
          (PMap.mk [([1], 9), ([1, 2], (10 : Nat))] none) [1])).1 = some v ∧
        (zRemoveValue (WZipper.mk
          (PMap.mk [([1], 9), ([1, 2], (10 : Nat))] none) [1])).2.focus
          = (WZipper.mk (PMap.mk [([1], 9), ([1, 2], (10 : Nat))] none) [1]).focus ∧
        (∀ q, q ≠ [] →
          lookupKey (zRemoveValue (WZipper.mk
            (PMap.mk [([1], 9), ([1, 2], (10 : Nat))] none) [1])).2.pm.entries
              ((WZipper.mk (PMap.mk [([1], 9), ([1, 2], (10 : Nat))] none)
                [1]).focus ++ q)
            = lookupKey (WZipper.mk
              (PMap.mk [([1], 9), ([1, 2], (10 : Nat))] none) [1]).pm.entries
              ((WZipper.mk (PMap.mk [([1], 9), ([1, 2], (10 : Nat))] none)
                [1]).focus ++ q)) ∧
        (∀ k, k ≠ (WZipper.mk
            (PMap.mk [([1], 9), ([1, 2], (10 : Nat))] none) [1]).focus →
          lookupKey (zRemoveValue (WZipper.mk
            (PMap.mk [([1], 9), ([1, 2], (10 : Nat))] none) [1])).2.pm.entries k
            = lookupKey (WZipper.mk
              (PMap.mk [([1], 9), ([1, 2], (10 : Nat))] none) [1]).pm.entries k) ∧
        zGetValue (zRemoveValue (WZipper.mk
          (PMap.mk [([1], 9), ([1, 2], (10 : Nat))] none) [1])).2 = none) ∧
      (zGetValue (WZipper.mk
          (PMap.mk [([1], 9), ([1, 2], (10 : Nat))] none) [1]) = none →
        zRemoveValue (WZipper.mk
          (PMap.mk [([1], 9), ([1, 2], (10 : Nat))] none) [1])
          = (none, WZipper.mk
            (PMap.mk [([1], 9), ([1, 2], (10 : Nat))] none) [1]))) :=
  ⟨by decide, claimC8RemoveValue
    (WZipper.mk (PMap.mk [([1], 9), ([1, 2], (10 : Nat))] none) [1]) (by decide)⟩

/-! ### C2 (corrected): algebraic laws on maps -/

theorem lookupKey_entriesJoin (jf : V → V → V) (xs ys : Entries V) (k : Key) :
    lookupKey (entriesJoin jf xs ys) k
      = optJoin jf (lookupKey xs k) (lookupKey ys k) := by
  unfold entriesJoin
  rw [lookupKey_append]
  have hfun : (fun (e : Key × V) =>
      match lookupKey ys e.1 with
      | some w => (e.1, jf e.2 w)
      | none => e)
      = fun (e : Key × V) => (e.1,
          match lookupKey ys e.1 with
          | some w => jf e.2 w
          | none => e.2) := by
    funext e
    cases lookupKey ys e.1 <;> rfl
  rw [hfun, lookupKey_mapEntry, lookupKey_filterKey (fun kk => !hasKey xs kk)]
  cases hx : lookupKey xs k <;> cases hy : lookupKey ys k <;>
    simp [hasKey, hx, hy, optJoin]

theorem lookupKey_entriesMeet (mf : V → V → V) (xs ys : Entries V) (k : Key) :
    lookupKey (entriesMeet mf xs ys) k
      = optMeet mf (lookupKey xs k) (lookupKey ys k) := by
  induction xs with
  | nil =>
    cases hy : lookupKey ys k <;> simp [entriesMeet, lookupKey, optMeet]
  | cons e rest ih =>
    by_cases hk : e.1 = k
    · subst hk
      cases hy : lookupKey ys e.1
      · rw [entriesMeet, hy, ih]
        simp [lookupKey, hy, optMeet]
        cases lookupKey rest e.1 <;> simp [optMeet]
      · rw [entriesMeet, hy]
        simp [lookupKey, hy, optMeet]
    · cases hy : lookupKey ys e.1
      · rw [entriesMeet, hy, ih]
        simp [lookupKey, hk]
      · rw [entriesMeet, hy]
        simp [lookupKey, hk, ih]

theorem lookupKey_entriesSubtract (sf : V → V → Option V) (xs ys : Entries V)
    (k : Key) (hn : (keysOf xs).Nodup) :
    lookupKey (entriesSubtract sf xs ys) k
      = optSubtract sf (lookupKey xs k) (lookupKey ys k) := by
  induction xs with
  | nil =>
    cases hy : lookupKey ys k <;> simp [entriesSubtract, lookupKey, optSubtract]
  | cons e rest ih =>
    rw [keysOf_cons, List.nodup_cons] at hn
    have ihh := ih hn.2
    by_cases hk : e.1 = k
    · subst hk
      have hrest : lookupKey rest e.1 = none :=
        (lookupKey_eq_none_iff rest e.1).mpr hn.1
      cases hy : lookupKey ys e.1 with
      | none =>
        simp only [entriesSubtract, hy]
        simp [lookupKey, hy, optSubtract]
      | some w =>
        cases hs : sf e.2 w with
        | none =>
          simp only [entriesSubtract, hy, hs, ihh]
          simp [lookupKey, hy, hrest, optSubtract, hs]
        | some u =>
          simp only [entriesSubtract, hy, hs]
          simp [lookupKey, hy, optSubtract, hs]
    · cases hy : lookupKey ys e.1 with
      | none =>
        simp only [entriesSubtract, hy]
        simp [lookupKey, hk, ihh]
      | some w =>
        cases hs : sf e.2 w with
        | none =>
          simp only [entriesSubtract, hy, hs]
          simp [lookupKey, hk, ihh]
        | some u =>
          simp only [entriesSubtract, hy, hs]
          simp [lookupKey, hk, ihh]

theorem entriesJoin_self (jf : V → V → V) (xs : Entries V)
    (hn : (keysOf xs).Nodup) (hji : ∀ a, jf a a = a) :
    entriesJoin jf xs xs = xs := by
  unfold entriesJoin
  have h2 : (xs.filter fun e => !hasKey xs e.1) = [] := by
    rw [List.filter_eq_nil_iff]
    intro e he
    simp [hasKey, lookupKey_of_mem_nodup xs e hn he]
  rw [h2, List.append_nil]
  have h1 : ∀ e ∈ xs, (match lookupKey xs e.1 with
      | some w => (e.1, jf e.2 w)
      | none => e) = id e := by
    intro e he
    rw [lookupKey_of_mem_nodup xs e hn he]
    simp [hji]
  rw [List.map_congr_left h1, List.map_id]

theorem entriesMeet_self (mf : V → V → V) (xs : Entries V)
    (hn : (keysOf xs).Nodup) (hmi : ∀ a, mf a a = a) :
    entriesMeet mf xs xs = xs := by
  have hgen : ∀ (zs : Entries V), (∀ e ∈ zs, e ∈ xs) →
      entriesMeet mf zs xs = zs := by
    intro zs
    induction zs with
    | nil => intro _; rfl
    | cons e rest ih =>
      intro hmem
      rw [entriesMeet,
        lookupKey_of_mem_nodup xs e hn (hmem e (List.mem_cons_self e rest))]
      show (e.1, mf e.2 e.2) :: entriesMeet mf rest xs = e :: rest
      rw [hmi, ih (fun e' he' => hmem e' (List.mem_cons_of_mem e he'))]
  exact hgen xs (fun _ h => h)

theorem entriesSubtract_self (sf : V → V → Option V) (xs : Entries V)
    (hn : (keysOf xs).Nodup) (hsa : ∀ a, sf a a = none) :
    entriesSubtract sf xs xs = [] := by
  have hgen : ∀ (zs : Entries V), (∀ e ∈ zs, e ∈ xs) →
      entriesSubtract sf zs xs = [] := by
    intro zs
    induction zs with
    | nil => intro _; rfl
    | cons e rest ih =>
      intro hmem
      rw [entriesSubtract,
        lookupKey_of_mem_nodup xs e hn (hmem e (List.mem_cons_self e rest))]
      show (match sf e.2 e.2 with
        | some u => (e.1, u) :: entriesSubtract sf rest xs
        | none => entriesSubtract sf rest xs) = []
      rw [hsa]
      exact ih (fun e' he' => hmem e' (List.mem_cons_of_mem e he'))
  exact hgen xs (fun _ h => h)

theorem entriesRestrict_self (xs : Entries V) : entriesRestrict xs xs = xs := by
  rw [entriesRestrict, List.filter_eq_self]
  intro e he
  rw [List.any_eq_true]
  exact ⟨e, he, List.isPrefixOf_iff_prefix.mpr (List.prefix_refl _)⟩

/-- C2 (amended): with the value algebra satisfying the lattice laws, `join`
and `meet` are commutative as key-value maps; `join(x,x)`, `meet(x,x)` and
`restrict(x,x)` reproduce `x`'s trie entries (every non-empty key; the map
operations rebuild the result with `new_with_root`, whose root value is
`None`, so the zero-length key is dropped); `subtract(x,x)` is the empty map;
and every key present in `meet(x,y)` is present in `join(x,y)`. -/
theorem claimC2AlgebraicLaws (jf mf : V → V → V) (sf : V → V → Option V)
    (x y : PMap V) (hwfx : wfEntries x.entries)
    (hjc : ∀ a b, jf a b = jf b a) (hji : ∀ a, jf a a = a)
    (hmc : ∀ a b, mf a b = mf b a) (hmi : ∀ a, mf a a = a)
    (hsa : ∀ a, sf a a = none) :
    (∀ k, mapGet (mapJoin jf x y) k = mapGet (mapJoin jf y x) k) ∧
    (∀ k, mapGet (mapMeet mf x y) k = mapGet (mapMeet mf y x) k) ∧
    (mapJoin jf x x).entries = x.entries ∧
    (mapMeet mf x x).entries = x.entries ∧
    mapSubtract sf x x = PMap.empty ∧
    (mapRestrict x x).entries = x.entries ∧
    (∀ k, mapGet (mapMeet mf x y) k ≠ none →
      mapGet (mapJoin jf x y) k ≠ none) := by
  refine ⟨?_, ?_, ?_, ?_, ?_, ?_, ?_⟩
  · intro k
    by_cases hk : k = []
    · simp [mapGet, mapJoin, zGetValue, hk]
    · simp only [mapGet, mapJoin, zGetValue, hk, if_neg, if_false]
      rw [lookupKey_entriesJoin, lookupKey_entriesJoin]
      cases lookupKey x.entries k <;> cases lookupKey y.entries k <;>
        simp [optJoin, hjc]
  · intro k
    by_cases hk : k = []
    · simp [mapGet, mapMeet, zGetValue, hk]
    · simp only [mapGet, mapMeet, zGetValue, hk, if_neg, if_false]
      rw [lookupKey_entriesMeet, lookupKey_entriesMeet]
      cases lookupKey x.entries k <;> cases lookupKey y.entries k <;>
        simp [optMeet, hmc]
  · exact entriesJoin_self jf x.entries hwfx.1 hji
  · exact entriesMeet_self mf x.entries hwfx.1 hmi
  · show (⟨entriesSubtract sf x.entries x.entries, none⟩ : PMap V) = PMap.empty
    rw [entriesSubtract_self sf x.entries hwfx.1 hsa]
    rfl
  · exact entriesRestrict_self x.entries
  · intro k hne
    by_cases hk : k = []
    · simp [mapGet, mapMeet, zGetValue, hk] at hne
    · simp only [mapGet, mapMeet, mapJoin, zGetValue, hk, if_neg,
        if_false] at hne ⊢
      rw [lookupKey_entriesMeet] at hne
      rw [lookupKey_entriesJoin]
      cases hx : lookupKey x.entries k <;> cases hy : lookupKey y.entries k <;>
        simp [hx, hy, optMeet, optJoin] at hne ⊢

/-- Witness for C2 at concrete maps with the value lattice on Nat
(join `max`, meet `min`, subtract by equality). -/
theorem claimC2AlgebraicLawsWitness :
    wfEntries (PMap.mk [([1], 2), ([2], 3)] none).entries ∧
    (∀ a b : Nat, Nat.max a b = Nat.max b a) ∧
    (∀ a : Nat, Nat.max a a = a) ∧
    (∀ a b : Nat, Nat.min a b = Nat.min b a) ∧
    (∀ a : Nat, Nat.min a a = a) ∧
    (∀ a : Nat, (if a = a then none else some a) = none) ∧
    ((∀ k, mapGet (mapJoin Nat.max (PMap.mk [([1], 2), ([2], 3)] none)
          (PMap.mk [([1], 7)] none)) k
        = mapGet (mapJoin Nat.max (PMap.mk [([1], 7)] none)
          (PMap.mk [([1], 2), ([2], 3)] none)) k) ∧
      (∀ k, mapGet (mapMeet Nat.min (PMap.mk [([1], 2), ([2], 3)] none)
          (PMap.mk [([1], 7)] none)) k
        = mapGet (mapMeet Nat.min (PMap.mk [([1], 7)] none)
          (PMap.mk [([1], 2), ([2], 3)] none)) k) ∧
      (mapJoin Nat.max (PMap.mk [([1], 2), ([2], 3)] none)
          (PMap.mk [([1], 2), ([2], 3)] none)).entries
        = (PMap.mk [([1], 2), ([2], 3)] none).entries ∧
      (mapMeet Nat.min (PMap.mk [([1], 2), ([2], 3)] none)
          (PMap.mk [([1], 2), ([2], 3)] none)).entries
        = (PMap.mk [([1], 2), ([2], 3)] none).entries ∧
      mapSubtract (fun a b => if a = b then none else some a)
          (PMap.mk [([1], 2), ([2], 3)] none)
          (PMap.mk [([1], 2), ([2], 3)] none) = PMap.empty ∧
      (mapRestrict (PMap.mk [([1], 2), ([2], 3)] none)
          (PMap.mk [([1], 2), ([2], 3)] none)).entries
        = (PMap.mk [([1], 2), ([2], 3)] none).entries ∧
      (∀ k, mapGet (mapMeet Nat.min (PMap.mk [([1], 2), ([2], 3)] none)
            (PMap.mk [([1], 7)] none)) k ≠ none →
        mapGet (mapJoin Nat.max (PMap.mk [([1], 2), ([2], 3)] none)
            (PMap.mk [([1], 7)] none)) k ≠ none)) :=
  ⟨by decide, Nat.max_comm, Nat.max_self, Nat.min_comm, Nat.min_self,
    fun a => by simp,
    claimC2AlgebraicLaws Nat.max Nat.min (fun a b => if a = b then none else some a)
      (PMap.mk [([1], 2), ([2], 3)] none) (PMap.mk [([1], 7)] none)
      (by decide) Nat.max_comm Nat.max_self Nat.min_comm Nat.min_self
      (fun a => by simp)⟩

/-- C2's claim as stated is false at the zero-length key: the algebraic map
operations drop root values (`new_with_root` sets `root_val` to `None`,
trie_map.rs 80-85), so for a map `x` holding only a root value,
`join(x, x)` does not equal `x` as a key-value map. -/
theorem claimC2Counterexample :
    ¬ (∀ k, mapGet (mapJoin Nat.max
        (mapInsert [] 5 (PMap.empty (V := Nat)))
        (mapInsert [] 5 (PMap.empty (V := Nat)))) k
      = mapGet (mapInsert [] 5 (PMap.empty (V := Nat))) k) := by
  intro h
  exact absurd (h []) (by decide)

/-! ### C4: insert_prefix then drop_head -/

theorem subAt_append (as bs : Entries V) (p : Key) :
    subAt (as ++ bs) p = subAt as p ++ subAt bs p := by
  induction as with
  | nil => simp [subAt]
  | cons e rest ih =>
    by_cases h : strictBelow p e <;> simp [subAt, h, ih]

theorem subAt_filter_not_below (es : Entries V) (p : Key) :
    subAt (es.filter fun e => !decide (strictBelow p e)) p = [] := by
  induction es with
  | nil => simp [subAt]
  | cons e rest ih =>
    by_cases h : strictBelow p e
    · simp [List.filter_cons, h, ih]
    · simp [List.filter_cons, h, subAt, ih]

theorem subAt_map_prepend (sub : Entries V) (p : Key)
    (hsub : ∀ e ∈ sub, e.1 ≠ []) :
    subAt (sub.map fun s => (p ++ s.1, s.2)) p = sub := by
  induction sub with
  | nil => simp [subAt]
  | cons s rest ih =>
    have hne : p ++ s.1 ≠ p := fun hEq =>
      hsub s (List.mem_cons_self s rest) (List.append_right_eq_self.mp hEq)
    have hsb : strictBelow p ((p ++ s.1, s.2) : Key × V) :=
      ⟨List.prefix_append p s.1, hne⟩
    rw [List.map_cons, subAt, if_pos hsb,
      ih (fun e he => hsub e (List.mem_cons_of_mem s he)), List.drop_left]

theorem subAt_graftAt (es : Entries V) (f : Key) (sub : Entries V)
    (hsub : ∀ e ∈ sub, e.1 ≠ []) :
    subAt (graftAt es f sub) f = sub := by
  unfold graftAt
  rw [subAt_append, subAt_filter_not_below, List.nil_append,
    subAt_map_prepend sub f hsub]

theorem mem_keysOf_subAt (es : Entries V) (p k : Key)
    (h : k ∈ keysOf (subAt es p)) : (p ++ k) ∈ keysOf es := by
  induction es with
  | nil => simp [subAt, keysOf] at h
  | cons e rest ih =>
    by_cases hb : strictBelow p e
    · rw [subAt, if_pos hb, keysOf_cons] at h
      rcases List.mem_cons.mp h with h0 | h0
      · subst h0
        rw [keysOf_cons]
        exact List.mem_cons.mpr (Or.inl (List.prefix_iff_eq_append.mp hb.1))
      · exact List.mem_cons_of_mem _ (ih h0)
    · rw [subAt, if_neg hb] at h
      exact List.mem_cons_of_mem _ (ih h)

theorem wf_subAt (es : Entries V) (p : Key) (hn : (keysOf es).Nodup) :
    wfEntries (subAt es p) := by
  constructor
  · induction es with
    | nil => simp [subAt, keysOf]
    | cons e rest ih =>
      rw [keysOf_cons, List.nodup_cons] at hn
      by_cases hb : strictBelow p e
      · rw [subAt, if_pos hb, keysOf_cons, List.nodup_cons]
        refine ⟨fun hmem => ?_, ih hn.2⟩
        have h1 := mem_keysOf_subAt rest p _ hmem
        rw [List.prefix_iff_eq_append.mp hb.1] at h1
        exact hn.1 h1
      · rw [subAt, if_neg hb]
        exact ih hn.2
  · intro e' he'
    clear hn
    induction es with
    | nil => simp [subAt] at he'
    | cons e rest ih =>
      by_cases hb : strictBelow p e
      · rw [subAt, if_pos hb] at he'
        rcases List.mem_cons.mp he' with h0 | h0
        · subst h0
          intro h0
          apply hb.2
          have h0' : List.drop (List.length p) e.1 = [] := h0
          have h1 := List.prefix_iff_eq_append.mp hb.1
          rw [h0', List.append_nil] at h1
          exact h1.symm
        · exact ih h0
      · rw [subAt, if_neg hb] at he'
        exact ih he'

theorem hasKey_append (as bs : Entries V) (k : Key) :
    hasKey (as ++ bs) k = (hasKey as k || hasKey bs k) := by
  unfold hasKey
  rw [lookupKey_append]
  cases lookupKey as k <;> simp

theorem addJoin_of_not_has (jf : V → V → V) (acc : Entries V) (k : Key) (v : V)
    (h : hasKey acc k = false) : addJoin jf acc k v = acc ++ [(k, v)] := by
  induction acc with
  | nil => simp [addJoin]
  | cons e rest ih =>
    unfold hasKey at h ih
    rw [lookupKey] at h
    by_cases he : e.1 = k
    · rw [if_pos he] at h
      simp at h
    · rw [if_neg he] at h
      simp [addJoin, he, ih h]

theorem foldlDropHead_append (jf : V → V → V) (n : Nat) (l : Entries V)
    (acc : Entries V)
    (hlong : ∀ e ∈ l, n < e.1.length)
    (hnodup : (l.map fun e => e.1.drop n).Nodup)
    (hdisj : ∀ e ∈ l, hasKey acc (e.1.drop n) = false) :
    l.foldl
        (fun acc e =>
          if n < e.1.length then addJoin jf acc (e.1.drop n) e.2 else acc)
        acc
      = acc ++ l.map fun e => (e.1.drop n, e.2) := by
  induction l generalizing acc with
  | nil => simp
  | cons e rest ih =>
    rw [List.map_cons, List.nodup_cons] at hnodup
    rw [List.foldl_cons, if_pos (hlong e (List.mem_cons_self e rest)),
      addJoin_of_not_has jf acc _ _ (hdisj e (List.mem_cons_self e rest)),
      ih (acc ++ [(e.1.drop n, e.2)])
        (fun e' he' => hlong e' (List.mem_cons_of_mem e he')) hnodup.2 ?_]
    · simp
    · intro e' he'
      rw [hasKey_append]
      have h1 : hasKey acc (e'.1.drop n) = false :=
        hdisj e' (List.mem_cons_of_mem e he')
      have h2 : hasKey [(e.1.drop n, e.2)] (e'.1.drop n) = false := by
        have hne : ¬ e.1.drop n = e'.1.drop n := fun hEq =>
          hnodup.1 (hEq ▸ List.mem_map_of_mem _ he')
        simp [hasKey, lookupKey, hne]
      rw [h1, h2]
      rfl

theorem dropHeadList_map_prepend (jf : V → V → V) (p : Key) (s : Entries V)
    (hne : ∀ e ∈ s, e.1 ≠ []) (hnodup : (keysOf s).Nodup) :
    dropHeadList jf p.length (s.map fun e => (p ++ e.1, e.2)) = s := by
  unfold dropHeadList
  rw [foldlDropHead_append jf p.length _ [] ?_ ?_ ?_]
  · rw [List.nil_append, List.map_map]
    have : ∀ e ∈ s, ((fun e => ((e.1 : Key).drop p.length, e.2)) ∘
        fun e => ((p ++ e.1 : Key), e.2)) e = id e := by
      intro e he
      simp [Function.comp, List.drop_left]
    rw [List.map_congr_left this, List.map_id]
  · intro e he
    rw [List.mem_map] at he
    obtain ⟨e₀, he₀, rfl⟩ := he
    have : e₀.1 ≠ [] := hne e₀ he₀
    simp only [List.length_append]
    cases h0 : e₀.1 with
    | nil => exact absurd h0 this
    | cons a l => simp [h0]
  · rw [List.map_map]
    have : (fun (e : Key × V) => e.1.drop p.length) ∘
        (fun (e : Key × V) => (((p ++ e.1 : Key), e.2) : Key × V)) = Prod.fst := by
      funext e
      simp [Function.comp, List.drop_left]
    rw [this]
    exact hnodup
  · intro e _
    simp [hasKey, lookupKey]

/-- C4: `insert_prefix(p)` followed by `drop_head(p.len())` leaves the set of
downstream paths below the focus, and the values on them, unchanged. -/
theorem claimC4InsertDropHeadInverse (z : WZipper V) (jf : V → V → V) (p : Key)
    (hwf : wfEntries z.pm.entries) (hp : p ≠ []) :
    subAt ((zDropHead jf p.length (zInsertPrefix p z).2).2).pm.entries z.focus
      = subAt z.pm.entries z.focus := by
  rcases hsub : subAt z.pm.entries z.focus with _ | ⟨s0, srest⟩
  · have h1 : zInsertPrefix p z = (false, z) := by
      simp [zInsertPrefix, hsub]
    rw [h1]
    have h2 : zDropHead jf p.length z = (false, z) := by
      simp [zDropHead, hsub]
    rw [h2]
    exact hsub
  · have hwfs : wfEntries (subAt z.pm.entries z.focus) :=
      wf_subAt z.pm.entries z.focus hwf.1
    rw [hsub] at hwfs
    have hmapne : ∀ e ∈ ((s0 :: srest).map fun e => ((p ++ e.1 : Key), e.2)),
        e.1 ≠ [] := by
      intro e he
      rw [List.mem_map] at he
      obtain ⟨e₀, _, rfl⟩ := he
      simp [hp]
    have h1 : (zInsertPrefix p z).2
        = zGraftInternal ((s0 :: srest).map fun e => ((p ++ e.1 : Key), e.2)) z := by
      simp [zInsertPrefix, hsub]
    have h2 : (zInsertPrefix p z).2.pm.entries
        = graftAt z.pm.entries z.focus
            ((s0 :: srest).map fun e => ((p ++ e.1 : Key), e.2)) := by
      rw [h1]; rfl
    have h3 : (zInsertPrefix p z).2.focus = z.focus := by
      rw [h1]; rfl
    have h4 : subAt (zInsertPrefix p z).2.pm.entries (zInsertPrefix p z).2.focus
        = (s0 :: srest).map fun e => ((p ++ e.1 : Key), e.2) := by
      rw [h2, h3]
      exact subAt_graftAt _ _ _ hmapne
    have h5 : dropHeadList jf p.length
        ((s0 :: srest).map fun e => ((p ++ e.1 : Key), e.2)) = s0 :: srest :=
      dropHeadList_map_prepend jf p (s0 :: srest) hwfs.2 hwfs.1
    have h4' := h4
    have h5' := h5
    simp only [List.map_cons] at h4' h5'
    have h6 : (zDropHead jf p.length (zInsertPrefix p z).2).2
        = zGraftInternal (s0 :: srest) (zInsertPrefix p z).2 := by
      simp [zDropHead, h4', h5']
    rw [h6]
    show subAt (graftAt (zInsertPrefix p z).2.pm.entries
      (zInsertPrefix p z).2.focus (s0 :: srest)) z.focus = s0 :: srest
    rw [h3]
    exact subAt_graftAt _ _ _ hwfs.2

/-- Witness for C4 at a concrete zipper and prefix. -/
theorem claimC4InsertDropHeadInverseWitness :
    wfEntries (WZipper.mk
      (PMap.mk [([1, 2], 10), ([1, 3], 11), ([9], (12 : Nat))] none) [1]).pm.entries ∧
    ([7, 8] : Key) ≠ [] ∧
    subAt ((zDropHead (fun a _ => a) (List.length [7, 8])
        (zInsertPrefix [7, 8] (WZipper.mk
          (PMap.mk [([1, 2], 10), ([1, 3], 11), ([9], (12 : Nat))] none)
          [1])).2).2).pm.entries
        (WZipper.mk (PMap.mk [([1, 2], 10), ([1, 3], 11), ([9], (12 : Nat))] none)
          [1]).focus
      = subAt (WZipper.mk
          (PMap.mk [([1, 2], 10), ([1, 3], 11), ([9], (12 : Nat))] none)
          [1]).pm.entries
        (WZipper.mk (PMap.mk [([1, 2], 10), ([1, 3], 11), ([9], (12 : Nat))] none)
          [1]).focus :=
  ⟨by decide, by decide,
    claimC4InsertDropHeadInverse
      (WZipper.mk (PMap.mk [([1, 2], 10), ([1, 3], 11), ([9], (12 : Nat))] none) [1])
      (fun a _ => a) [7, 8] (by decide) (by decide)⟩

/-! ### C9 (code bug): range with a negative step -/

theorem negOneIntNeZero : (-1 : Int) ≠ 0 := by decide

theorem rangeKeysEvalNeg (h : (-1 : Int) ≠ 0) :
    rangeKeys 5 0 (-1) h = [5, 4, 3, 2, 1, 0] := by
  rw [rangeKeys, dif_neg (by norm_num : ¬ (0 : Int) < -1)]
  rw [rangeNeg]; norm_num
  rw [rangeNeg]; norm_num
  rw [rangeNeg]; norm_num
  rw [rangeNeg]; norm_num
  rw [rangeNeg]; norm_num
  rw [rangeNeg]; norm_num
  rw [rangeNeg]; norm_num

/-- C9 (code bug): `range::<BE, i64>(5, 0, -1, v)` must, per the claim, stop
before reaching `stop = 0` and produce keys for `5, 4, 3, 2, 1` only; the
loop in trie_map.rs 100-112 breaks on `i <= step` instead of `i <= stop` when
the step is not positive, so it also inserts the key for `i = 0`: the map has
six values, and the big-endian encoding of `0` is mapped to `v`. -/
theorem claimC9RangeNegativeStep :
    rangeKeys 5 0 (-1) negOneIntNeZero = [5, 4, 3, 2, 1, 0] ∧
    mapGet (rangeMap true 8 5 0 (-1) negOneIntNeZero (7 : Nat))
        (intToBytesBE 8 0) = some 7 ∧
    mapValCount (rangeMap true 8 5 0 (-1) negOneIntNeZero (7 : Nat)) = 6 := by
  refine ⟨rangeKeysEvalNeg _, ?_, ?_⟩ <;>
  · rw [rangeMap, rangeKeysEvalNeg]
    decide

end PathMap
